import Mathlib

/-!
# echo-sql URL shortener: code generator and upsert coordinator

A shallow embedding of `echo-sql/handler.go` (`GenerateShortLink`, `sha256Of`,
`base58Encoded`, `InsertURL`, `PutURL`) together with the library routines these
functions call, followed by the properties of the handler that are proved or refuted.

Conventions: bytes and machine words are natural numbers (reduced `% 2^w` where the
width matters), Go strings handed to byte-level routines are lists of bytes, a Go
runtime panic is `none`, timestamps are natural numbers.
-/

namespace EchoSql

/-! ## SHA-256 (`crypto/sha256`, FIPS 180-4) -/

/-- The 64 round constants of SHA-256. -/
def sha256K : List Nat :=
  [
   0x428a2f98, 0x71374491, 0xb5c0fbcf, 0xe9b5dba5,
   0x3956c25b, 0x59f111f1, 0x923f82a4, 0xab1c5ed5,
   0xd807aa98, 0x12835b01, 0x243185be, 0x550c7dc3,
   0x72be5d74, 0x80deb1fe, 0x9bdc06a7, 0xc19bf174,
   0xe49b69c1, 0xefbe4786, 0x0fc19dc6, 0x240ca1cc,
   0x2de92c6f, 0x4a7484aa, 0x5cb0a9dc, 0x76f988da,
   0x983e5152, 0xa831c66d, 0xb00327c8, 0xbf597fc7,
   0xc6e00bf3, 0xd5a79147, 0x06ca6351, 0x14292967,
   0x27b70a85, 0x2e1b2138, 0x4d2c6dfc, 0x53380d13,
   0x650a7354, 0x766a0abb, 0x81c2c92e, 0x92722c85,
   0xa2bfe8a1, 0xa81a664b, 0xc24b8b70, 0xc76c51a3,
   0xd192e819, 0xd6990624, 0xf40e3585, 0x106aa070,
   0x19a4c116, 0x1e376c08, 0x2748774c, 0x34b0bcb5,
   0x391c0cb3, 0x4ed8aa4a, 0x5b9cca4f, 0x682e6ff3,
   0x748f82ee, 0x78a5636f, 0x84c87814, 0x8cc70208,
   0x90befffa, 0xa4506ceb, 0xbef9a3f7, 0xc67178f2
  ]

/-- The initial hash value of SHA-256. -/
def sha256Init : List Nat :=
  [0x6a09e667, 0xbb67ae85, 0x3c6ef372, 0xa54ff53a,
   0x510e527f, 0x9b05688c, 0x1f83d9ab, 0x5be0cd19]

/-- Reduction to a 32-bit word. -/
def word32 (x : Nat) : Nat := x % 4294967296

/-- Rotate the 32-bit word `x` right by `n` bits (`0 < n < 32`). -/
def rotr32 (x n : Nat) : Nat := word32 ((x >>> n) ||| (x <<< (32 - n)))

/-- The choice function `Ch(x, y, z) = (x ∧ y) ⊕ (¬x ∧ z)`. -/
def sha256Ch (x y z : Nat) : Nat := (x &&& y) ^^^ ((x ^^^ 0xffffffff) &&& z)

/-- The majority function `Maj(x, y, z)`. -/
def sha256Maj (x y z : Nat) : Nat := (x &&& y) ^^^ (x &&& z) ^^^ (y &&& z)

/-- The function `Σ₀`. -/
def bigSigma0 (x : Nat) : Nat := rotr32 x 2 ^^^ rotr32 x 13 ^^^ rotr32 x 22

/-- The function `Σ₁`. -/
def bigSigma1 (x : Nat) : Nat := rotr32 x 6 ^^^ rotr32 x 11 ^^^ rotr32 x 25

/-- The function `σ₀`. -/
def smallSigma0 (x : Nat) : Nat := rotr32 x 7 ^^^ rotr32 x 18 ^^^ (x >>> 3)

/-- The function `σ₁`. -/
def smallSigma1 (x : Nat) : Nat := rotr32 x 17 ^^^ rotr32 x 19 ^^^ (x >>> 10)

/-- The big-endian bytes of `n`, `len` of them (the low `8 * len` bits of `n`). -/
def bigEndianBytes : Nat → Nat → List Nat
  | 0, _ => []
  | len + 1, n => (n >>> (8 * len)) % 256 :: bigEndianBytes len n

/-- The big-endian value of a list of bytes (`big.Int.SetBytes`). -/
def bigEndianValue (bs : List Nat) : Nat := bs.foldl (fun acc b => acc * 256 + b) 0

/-- Message padding: a `0x80` byte, zero bytes up to 56 modulo 64, and the bit length of
the message as a 64-bit big-endian integer. -/
def sha256Pad (msg : List Nat) : List Nat :=
  msg ++ 0x80 :: (List.replicate ((119 - msg.length % 64) % 64) 0
    ++ bigEndianBytes 8 ((8 * msg.length) % 18446744073709551616))

/-- The sixteen 32-bit big-endian words of a 64-byte block. -/
def blockWords : Nat → List Nat → List Nat
  | 0, _ => []
  | k + 1, bs => bigEndianValue (bs.take 4) :: blockWords k (bs.drop 4)

/-- Extend the message schedule by `k` words; `w` holds the words computed so far. -/
def extendSchedule : Nat → List Nat → List Nat
  | 0, w => w
  | k + 1, w =>
    let t := w.length
    extendSchedule k (w ++ [word32 (smallSigma1 (w.getD (t - 2) 0) + w.getD (t - 7) 0
      + smallSigma0 (w.getD (t - 15) 0) + w.getD (t - 16) 0)])

/-- The working variables `a … h` of the compression function. -/
structure Sha256State where
  a : Nat
  b : Nat
  c : Nat
  d : Nat
  e : Nat
  f : Nat
  g : Nat
  h : Nat
  deriving DecidableEq

/-- One round of the compression function with round constant `k` and schedule word `w`. -/
def sha256Round (s : Sha256State) (k w : Nat) : Sha256State :=
  let t1 := word32 (s.h + bigSigma1 s.e + sha256Ch s.e s.f s.g + k + w)
  let t2 := word32 (bigSigma0 s.a + sha256Maj s.a s.b s.c)
  { a := word32 (t1 + t2), b := s.a, c := s.b, d := s.c,
    e := word32 (s.d + t1), f := s.e, g := s.f, h := s.g }

/-- All 64 rounds over the schedule `w`. -/
def sha256Rounds : List Nat → List Nat → Sha256State → Sha256State
  | k :: ks, w :: ws, s => sha256Rounds ks ws (sha256Round s k w)
  | _, _, s => s

/-- Process one 64-byte block: the new chaining value. -/
def sha256Block (hs : List Nat) (block : List Nat) : List Nat :=
  let s0 : Sha256State :=
    { a := hs.getD 0 0, b := hs.getD 1 0, c := hs.getD 2 0, d := hs.getD 3 0,
      e := hs.getD 4 0, f := hs.getD 5 0, g := hs.getD 6 0, h := hs.getD 7 0 }
  let s := sha256Rounds sha256K (extendSchedule 48 (blockWords 16 block)) s0
  [word32 (s0.a + s.a), word32 (s0.b + s.b), word32 (s0.c + s.c), word32 (s0.d + s.d),
   word32 (s0.e + s.e), word32 (s0.f + s.f), word32 (s0.g + s.g), word32 (s0.h + s.h)]

/-- Process `k` consecutive blocks of `bs`. -/
def sha256Blocks : Nat → List Nat → List Nat → List Nat
  | 0, _, hs => hs
  | k + 1, bs, hs => sha256Blocks k (bs.drop 64) (sha256Block hs (bs.take 64))

/-- The SHA-256 digest of a byte string: 32 bytes. -/
def sha256 (msg : List Nat) : List Nat :=
  let padded := sha256Pad msg
  (sha256Blocks (padded.length / 64) padded sha256Init).flatMap (bigEndianBytes 4)

/-! ## Decimal formatting and parsing (`fmt.Sprintf("%d", ·)`, `big.Int.SetString(·, 10)`) -/

/-- The digits of `n` in base `b`, least significant first; at most `fuel` of them. -/
def digitsFuel (b : Nat) : Nat → Nat → List Nat
  | 0, _ => []
  | fuel + 1, n => if n = 0 then [] else n % b :: digitsFuel b fuel (n / b)

/-- The bytes of `fmt.Sprintf("%d", n)` for a `uint64` value `n`: its ASCII decimal digits,
most significant first, `"0"` for zero. A `uint64` has at most 20 decimal digits. -/
def formatDecimal (n : Nat) : List Nat :=
  if n = 0 then [48] else ((digitsFuel 10 20 n).map (· + 48)).reverse

/-- Read a run of ASCII decimal digits, most significant first, onto the accumulator `acc`;
`none` when a byte is not a digit. -/
def parseDigits : List Nat → Nat → Option Nat
  | [], acc => some acc
  | b :: bs, acc => if 48 ≤ b ∧ b ≤ 57 then parseDigits bs (acc * 10 + (b - 48)) else none

/-- The result of `new(big.Int).SetString(string(src), 10)`: an optional sign followed by
one or more decimal digits; `none` when the text is not such a numeral (`ok = false`). -/
def setStringBase10 (src : List Nat) : Option Int :=
  match src with
  | [] => none
  | b :: bs =>
    if b = 45 then
      (if bs = [] then none else (parseDigits bs 0).map (fun (m : Nat) => -(m : Int)))
    else if b = 43 then
      (if bs = [] then none else (parseDigits bs 0).map (fun (m : Nat) => (m : Int)))
    else (parseDigits (b :: bs) 0).map (fun (m : Nat) => (m : Int))

/-! ## Base58 (`github.com/itchyny/base58-go`)

`Encoding.Encode` of this package "encodes the number represented in the byte array base
10": its argument is the decimal numeral of a number, which is why `GenerateShortLink`
hands it `fmt.Sprintf("%d", generatedNumber)`. It parses the numeral with
`big.Int.SetString(string(src), 10)`, emits `alphabet[0]` for every leading `'0'` byte,
and then the base-58 digits of the number, most significant first. -/

/-- The alphabet of `base58.BitcoinEncoding`. -/
def bitcoinAlphabet : List Char :=
  "123456789ABCDEFGHJKLMNPQRSTUVWXYZabcdefghijkmnopqrstuvwxyz".toList

/-- The number of leading `'0'` bytes of `src`. -/
def leadingZeros : List Nat → Nat
  | [] => 0
  | b :: bs => if b = 48 then leadingZeros bs + 1 else 0

/-- The loop `for n > 0 { n, mod = n / 58, n % 58; append alphabet[mod] }` of `Encode`: the
characters of the base-58 digits of `n`, least significant first. `fuel` bounds the number
of iterations. -/
def base58Loop : Nat → Nat → List Char
  | 0, _ => []
  | fuel + 1, n =>
    if 0 < n then bitcoinAlphabet.getD (n % 58) '1' :: base58Loop fuel (n / 58) else []

/-- The method `BitcoinEncoding.Encode`: `none` stands for a returned error (with a nil byte
slice). The loop runs at most `len(src)` times, since a numeral of `len(src)` decimal digits
denotes a number below `58 ^ len(src)`; `len(src)` is also the capacity that `Encode`
allocates for its output. `GenerateShortLink` only passes unsigned numerals without leading
zeros; a negative number is an error. -/
def Encode (src : List Nat) : Option (List Char) :=
  if src = [] then some []
  else
    match setStringBase10 src with
    | none => none
    | some n =>
      if n < 0 then none
      else some (List.replicate (leadingZeros src) (bitcoinAlphabet.getD 0 '1')
        ++ (base58Loop src.length n.toNat).reverse)

/-! ## The code generator of `handler.go` -/

/-- The function `sha256Of`: the SHA-256 digest of `[]byte(input)`, the UTF-8 bytes of the
string. -/
def sha256Of (input : String) : List Nat :=
  sha256 (input.toUTF8.data.toList.map UInt8.toNat)

/-- The function `base58Encoded`: the error of `Encode` is discarded, so a failed encoding
is the empty string. The characters are ASCII, one byte each. -/
def base58Encoded (bytes : List Nat) : List Char :=
  (Encode bytes).getD []

/-- The value `new(big.Int).SetBytes(urlHashBytes).Uint64()`: the low 64 bits of the digest
read as a big-endian integer. -/
def generatedNumber (initialLink : String) : Nat :=
  bigEndianValue (sha256Of initialLink) % 18446744073709551616

/-- The value of `finalString` in `GenerateShortLink`, before the slice. -/
def finalString (initialLink : String) : List Char :=
  base58Encoded (formatDecimal (generatedNumber initialLink))

/-- The function `GenerateShortLink`. The slice expression `finalString[:8]` panics when
`finalString` is shorter than 8 bytes: `none` is that panic. -/
def GenerateShortLink (initialLink : String) : Option String :=
  let finalString := finalString initialLink
  if 8 ≤ finalString.length then some (String.mk (finalString.take 8)) else none

/-! ## The pipeline as the specification words it

Step 4 of the specification reads "Base58-encode the bytes of that decimal string": the
ASCII bytes of the numeral are the payload, a big-endian base-256 number written in base
58, with one leading `'1'` per leading zero byte. -/

/-- The number of leading zero bytes of a payload. -/
def leadingZeroBytes : List Nat → Nat
  | [] => 0
  | b :: bs => if b = 0 then leadingZeroBytes bs + 1 else 0

/-- Base58 encoding of a byte string taken as the payload (spec wording). A payload of `k`
bytes has at most `2 * k` base-58 digits. -/
def specBase58OfBytes (payload : List Nat) : List Char :=
  List.replicate (leadingZeroBytes payload) '1'
    ++ (base58Loop (2 * payload.length) (bigEndianValue payload)).reverse

/-- The reference pipeline of the specification: digest, low 64 bits, decimal string,
base58 of the bytes of that string, first 8 characters. -/
def specGenerate (url : String) : Option String :=
  let encoded := specBase58OfBytes (formatDecimal (generatedNumber url))
  if 8 ≤ encoded.length then some (String.mk (encoded.take 8)) else none

/-! ## The store collaborator (`database/sql` over the table `url_map`) -/

/-- The type `URLEntry`, also a row of `url_map`. A `time.Time` is a natural number
(nanoseconds since the epoch). -/
structure URLEntry where
  ID : String
  Redirect_URL : String
  Created_At : Nat
  Updated_At : Nat
  deriving DecidableEq

/-- The rows of `url_map`, in storage order. The table enforces no constraint. -/
abbrev Table := List URLEntry

/-- An error value produced by the store. -/
abbrev StoreError := String

/-- What the store does at each step of one request: `none` lets the step succeed,
`some err` makes it fail with `err`. `next` is a failure while the rows of the query are
read: `Rows.Next` then returns false and keeps the error for `Rows.Err`. -/
structure Faults where
  ping : Option StoreError
  query : Option StoreError
  next : Option StoreError
  scan : Option StoreError
  exec : Option StoreError
  deriving DecidableEq

/-- The global `Database` handle: the table behind it and how it behaves during the
current request. -/
structure Database where
  rows : Table
  faults : Faults
  deriving DecidableEq

/-- The three SQL statements of `InsertURL`, with their bound arguments. -/
inductive Statement where
  | select_query (id : String)
  | update_timestamp (updated_at : Nat) (id : String)
  | insert_query (id redirect_url : String) (created_at updated_at : Nat)
  deriving DecidableEq

/-- A round trip to the store. -/
inductive StoreStep where
  | QueryContext (stmt : Statement)
  | Next
  | Scan
  | ExecContext (stmt : Statement)
  deriving DecidableEq

/-- A store step together with the error it produced, if any. -/
structure StoreEvent where
  step : StoreStep
  failure : Option StoreError
  deriving DecidableEq

/-- The rows selected by `SELECT * FROM url_map WHERE id = $1`. -/
def selectRows (rows : Table) (id : String) : List URLEntry :=
  rows.filter (fun r => r.ID = id)

/-- The effect of a statement on the table. -/
def execStatement (rows : Table) : Statement → Table
  | .select_query _ => rows
  | .update_timestamp updated_at id =>
    rows.map (fun r => if r.ID = id then { r with Updated_At := updated_at } else r)
  | .insert_query id redirect_url created_at updated_at =>
    rows ++ [{ ID := id, Redirect_URL := redirect_url,
               Created_At := created_at, Updated_At := updated_at }]

/-- What a call of `InsertURL` returns and leaves behind: the returned `error` (`none` is
`nil`), the table afterwards, and the store steps it issued, in order. -/
structure InsertResult where
  err : Option StoreError
  rows : Table
  log : List StoreEvent
  deriving DecidableEq

/-- The row that `res.Next()` makes available for `Scan`: the first selected row, and
none when the query selected no row or when reading the rows failed. In both of the latter
cases `res.Next()` returns false. -/
def rowsNext (db : Database) (id : String) : Option URLEntry :=
  match db.faults.next with
  | some _ => none
  | none => (selectRows db.rows id).head?

/-- The function `InsertURL`. `res.Next()` is true exactly when `rowsNext` has a row;
`res.Err()` is never read, so a failure while the rows are read takes the same path as a
query without rows. `Scan` reads the row into the inner variable `entry`, which shadows the
parameter: the update statement is bound to the scanned row's `Updated_At` and `ID`. A
failed statement leaves the table as it was. -/
def InsertURL (db : Database) (entry : URLEntry) : InsertResult :=
  let query : StoreStep := .QueryContext (.select_query entry.ID)
  match db.faults.query with
  | some err => { err := some err, rows := db.rows, log := [⟨query, some err⟩] }
  | none =>
    match rowsNext db entry.ID with
    | some row =>
      match db.faults.scan with
      | some err =>
        { err := some err, rows := db.rows,
          log := [⟨query, none⟩, ⟨.Next, db.faults.next⟩, ⟨.Scan, some err⟩] }
      | none =>
        let entry := row
        let stmt : Statement := .update_timestamp entry.Updated_At entry.ID
        match db.faults.exec with
        | some err =>
          { err := some err, rows := db.rows,
            log := [⟨query, none⟩, ⟨.Next, db.faults.next⟩, ⟨.Scan, none⟩,
                    ⟨.ExecContext stmt, some err⟩] }
        | none =>
          { err := none, rows := execStatement db.rows stmt,
            log := [⟨query, none⟩, ⟨.Next, db.faults.next⟩, ⟨.Scan, none⟩,
                    ⟨.ExecContext stmt, none⟩] }
    | none =>
      let stmt : Statement :=
        .insert_query entry.ID entry.Redirect_URL entry.Created_At entry.Updated_At
      match db.faults.exec with
      | some err =>
        { err := some err, rows := db.rows,
          log := [⟨query, none⟩, ⟨.Next, db.faults.next⟩, ⟨.ExecContext stmt, some err⟩] }
      | none =>
        { err := none, rows := execStatement db.rows stmt,
          log := [⟨query, none⟩, ⟨.Next, db.faults.next⟩, ⟨.ExecContext stmt, none⟩] }

/-- One `InsertURL` call in a sequence: the behaviour of the store during the call and the
entry passed. -/
abbrev InsertCall := Faults × URLEntry

/-- The table left by a sequence of `InsertURL` calls run one after the other. -/
def runCalls (rows : Table) (calls : List InsertCall) : Table :=
  calls.foldl (fun rows call => (InsertURL ⟨rows, call.1⟩ call.2).rows) rows

/-- At most one row per `id`. -/
def UniqueIds (rows : Table) : Prop := (rows.map (·.ID)).Nodup

instance (rows : Table) : Decidable (UniqueIds rows) := by
  unfold UniqueIds; infer_instance

/-- Whether a step is a query. -/
def StoreStep.isQuery : StoreStep → Bool
  | .QueryContext _ => true
  | _ => false

/-- Whether a step is an execute. -/
def StoreStep.isExec : StoreStep → Bool
  | .ExecContext _ => true
  | _ => false

/-- Whether a step is the reading of the next row. -/
def StoreStep.isNext : StoreStep → Bool
  | .Next => true
  | _ => false

/-! ## The handler `PutURL` -/

/-- The type `urlRequestBody`. -/
structure urlRequestBody where
  URL : String
  deriving DecidableEq

/-- What the handler hands back to the framework: an `echo.HTTPError` with its status and
message, or the JSON body `successResponse` with its status. -/
inductive Response where
  | HTTPError (code : Nat) (message : String)
  | JSON (code : Nat) (TS : Nat) (URL : String)
  deriving DecidableEq

/-- A call that `PutURL` makes into the core. -/
inductive CoreCall where
  | GenerateShortLink (initialLink : String)
  | InsertURL (entry : URLEntry)
  deriving DecidableEq

/-- What a call of `PutURL` returns and leaves behind: the response (`none` when the
handler panicked), the table afterwards, and the core calls it made, in order. -/
structure PutResult where
  response : Option Response
  rows : Table
  calls : List CoreCall
  deriving DecidableEq

/-- The function `PutURL`. `bind` is the outcome of `c.Bind(req_body)` (`none` when decoding
failed) and `now` is the value of `time.Now()`. -/
def PutURL (db : Database) (bind : Option urlRequestBody) (now : Nat) : PutResult :=
  match db.faults.ping with
  | some _ =>
    { response := some (.HTTPError 500 "Could not connect to Postgres."),
      rows := db.rows, calls := [] }
  | none =>
    match bind with
    | none =>
      { response := some (.HTTPError 400 "Failed to decode request."),
        rows := db.rows, calls := [] }
    | some req_body =>
      let u := req_body.URL
      if u = "" then
        { response := some (.HTTPError 400 "Missing URL parameter"),
          rows := db.rows, calls := [] }
      else
        match GenerateShortLink u with
        | none => { response := none, rows := db.rows, calls := [.GenerateShortLink u] }
        | some id =>
          let t := now
          let entry : URLEntry := { ID := id, Created_At := t, Updated_At := t, Redirect_URL := u }
          let res := InsertURL db entry
          match res.err with
          | some err =>
            { response := some (.HTTPError 500 ("Unable to shorten URL: " ++ err)),
              rows := res.rows, calls := [.GenerateShortLink u, .InsertURL entry] }
          | none =>
            { response := some (.JSON 200 t ("http://localhost:8080/" ++ id)),
              rows := res.rows, calls := [.GenerateShortLink u, .InsertURL entry] }

/-- A store that lets every step succeed. -/
def noFaults : Faults :=
  { ping := none, query := none, next := none, scan := none, exec := none }

/-- A store on which reading the rows of the query fails and every other step succeeds. -/
def nextFails : Faults :=
  { ping := none, query := none, next := some "read tcp: connection reset by peer",
    scan := none, exec := none }

/-- The error the store produces at a step. -/
def Faults.atStep (f : Faults) : StoreStep → Option StoreError
  | .QueryContext _ => f.query
  | .Next => f.next
  | .Scan => f.scan
  | .ExecContext _ => f.exec

/-! ## Digits, decimal numerals and the loop of `Encode` -/

theorem digitsFuel_eq_digits (b : Nat) (hb : 1 < b) :
    ∀ (fuel n : Nat), n < b ^ fuel → digitsFuel b fuel n = Nat.digits b n := by
  intro fuel
  induction fuel with
  | zero =>
    intro n hn
    have h0 : n = 0 := by simpa using hn
    subst h0
    simp [digitsFuel]
  | succ k ih =>
    intro n hn
    by_cases h0 : n = 0
    · subst h0
      simp [digitsFuel]
    · have hpos : 0 < n := Nat.pos_of_ne_zero h0
      have hdiv : n / b < b ^ k := by
        apply Nat.div_lt_of_lt_mul
        rw [pow_succ] at hn
        rw [Nat.mul_comm]
        exact hn
      rw [digitsFuel, if_neg h0, ih _ hdiv, Nat.digits_def' hb hpos]

theorem base58Loop_eq_map (fuel n : Nat) :
    base58Loop fuel n = (digitsFuel 58 fuel n).map (fun d => bitcoinAlphabet.getD d '1') := by
  induction fuel generalizing n with
  | zero => simp [base58Loop, digitsFuel]
  | succ k ih =>
    by_cases h0 : n = 0
    · subst h0
      simp [base58Loop, digitsFuel]
    · have hpos : 0 < n := Nat.pos_of_ne_zero h0
      simp [base58Loop, digitsFuel, h0, hpos, ih]

theorem base58Loop_eq_digits (fuel n : Nat) (h : n < 58 ^ fuel) :
    base58Loop fuel n = (Nat.digits 58 n).map (fun d => bitcoinAlphabet.getD d '1') := by
  rw [base58Loop_eq_map, digitsFuel_eq_digits 58 (by norm_num) fuel n h]

theorem parseDigits_append (xs ys : List Nat) (acc : Nat) :
    parseDigits (xs ++ ys) acc = (parseDigits xs acc).bind (fun a => parseDigits ys a) := by
  induction xs generalizing acc with
  | nil => simp [parseDigits]
  | cons x xs ih =>
    by_cases hx : 48 ≤ x ∧ x ≤ 57
    · simp [parseDigits, hx, ih]
    · simp [parseDigits, hx]

theorem parseDigits_reverse_digits (l : List Nat) (hl : ∀ d ∈ l, d < 10) (acc : Nat) :
    parseDigits ((l.map (· + 48)).reverse) acc
      = some (acc * 10 ^ l.length + Nat.ofDigits 10 l) := by
  induction l with
  | nil => simp [parseDigits]
  | cons d l ih =>
    have hd : d < 10 := hl d (List.mem_cons_self _ _)
    have hl' : ∀ x ∈ l, x < 10 := fun x hx => hl x (List.mem_cons_of_mem _ hx)
    have hrange : 48 ≤ d + 48 ∧ d + 48 ≤ 57 := by omega
    rw [List.map_cons, List.reverse_cons, parseDigits_append, ih hl']
    simp only [Option.some_bind, parseDigits, hrange, and_self, if_true, Nat.ofDigits_cons,
      List.length_cons]
    congr 1
    rw [pow_succ]
    simp only [Nat.add_sub_cancel]
    ring

/-- Every byte of `formatDecimal n` is an ASCII digit. -/
theorem formatDecimal_digit (n : Nat) : ∀ b ∈ formatDecimal n, 48 ≤ b ∧ b ≤ 57 := by
  intro b hb
  unfold formatDecimal at hb
  split at hb
  · simp at hb; omega
  · simp only [List.mem_reverse, List.mem_map] at hb
    obtain ⟨d, hd, rfl⟩ := hb
    have : d < 10 := by
      have hmem : ∀ (fuel m : Nat), ∀ x ∈ digitsFuel 10 fuel m, x < 10 := by
        intro fuel
        induction fuel with
        | zero => intro m x hx; simp [digitsFuel] at hx
        | succ k ih =>
          intro m x hx
          rw [digitsFuel] at hx
          split at hx
          · simp at hx
          · rcases List.mem_cons.mp hx with h | h
            · rw [h]; exact Nat.mod_lt _ (by norm_num)
            · exact ih _ _ h
      exact hmem _ _ _ hd
    omega

theorem formatDecimal_eq (n : Nat) (hn : n < 18446744073709551616) (h0 : n ≠ 0) :
    formatDecimal n = ((Nat.digits 10 n).map (· + 48)).reverse := by
  have h20 : n < 10 ^ 20 := by
    have : (18446744073709551616 : Nat) < 10 ^ 20 := by norm_num
    omega
  rw [formatDecimal, if_neg h0, digitsFuel_eq_digits 10 (by norm_num) 20 n h20]

theorem formatDecimal_ne_nil (n : Nat) : formatDecimal n ≠ [] := by
  unfold formatDecimal
  split
  · simp
  · rename_i h0
    rw [digitsFuel]
    simp [h0]

theorem setStringBase10_formatDecimal (n : Nat) (hn : n < 18446744073709551616) :
    setStringBase10 (formatDecimal n) = some (n : Int) := by
  by_cases h0 : n = 0
  · subst h0
    decide
  · have hdig := formatDecimal_digit n
    have hparse : parseDigits (formatDecimal n) 0 = some n := by
      rw [formatDecimal_eq n hn h0, parseDigits_reverse_digits _
        (fun d hd => Nat.digits_lt_base (by norm_num) hd)]
      simp [Nat.ofDigits_digits]
    cases hfd : formatDecimal n with
    | nil => exact absurd hfd (formatDecimal_ne_nil n)
    | cons b bs =>
      have hb := hdig b (by rw [hfd]; exact List.mem_cons_self _ _)
      have h45 : b ≠ 45 := by omega
      have h43 : b ≠ 43 := by omega
      rw [hfd] at hparse
      simp [setStringBase10, h45, h43, hparse]

theorem leadingZeros_formatDecimal (n : Nat) (hn : n < 18446744073709551616) (h0 : n ≠ 0) :
    leadingZeros (formatDecimal n) = 0 := by
  rw [formatDecimal_eq n hn h0]
  have hne : Nat.digits 10 n ≠ [] := by
    simpa [Nat.digits_eq_nil_iff_eq_zero] using h0
  have hlast := Nat.getLast_digit_ne_zero 10 h0
  rcases List.eq_nil_or_concat (Nat.digits 10 n) with h | ⟨l, d, h⟩
  · exact absurd h hne
  · have hd : d ≠ 0 := by
      have := hlast
      simp only [h, List.concat_eq_append, List.getLast_append_singleton] at this
      simpa using this
    rw [h]
    simp [leadingZeros, hd]

theorem formatDecimal_length (n : Nat) (hn : n < 18446744073709551616) (h0 : n ≠ 0) :
    (formatDecimal n).length = (Nat.digits 10 n).length := by
  rw [formatDecimal_eq n hn h0]; simp

/-- The characters of the base-58 numeral of `n`, most significant first. -/
theorem Encode_formatDecimal (n : Nat) (hn : n < 18446744073709551616) (h0 : n ≠ 0) :
    Encode (formatDecimal n)
      = some (((Nat.digits 58 n).map (fun d => bitcoinAlphabet.getD d '1')).reverse) := by
  have hfuel : n < 58 ^ (formatDecimal n).length := by
    rw [formatDecimal_length n hn h0]
    calc n < 10 ^ (Nat.digits 10 n).length := Nat.lt_base_pow_length_digits (by norm_num)
      _ ≤ 58 ^ (Nat.digits 10 n).length := Nat.pow_le_pow_left (by norm_num) _
  rw [Encode, if_neg (formatDecimal_ne_nil n), setStringBase10_formatDecimal n hn]
  simp only
  rw [if_neg (by omega), leadingZeros_formatDecimal n hn h0, Int.toNat_ofNat,
    base58Loop_eq_digits _ _ hfuel]
  simp

theorem parseDigits_lt (bs : List Nat) (acc n : Nat) (h : parseDigits bs acc = some n) :
    n < (acc + 1) * 10 ^ bs.length := by
  induction bs generalizing acc with
  | nil =>
    simp only [parseDigits, Option.some.injEq] at h
    subst h
    simp
  | cons b bs ih =>
    rw [parseDigits] at h
    split at h
    · rename_i hb
      have := ih _ h
      have hle : (acc * 10 + (b - 48) + 1) * 10 ^ bs.length
          ≤ ((acc + 1) * 10) * 10 ^ bs.length :=
        Nat.mul_le_mul_right _ (by omega)
      calc n < (acc * 10 + (b - 48) + 1) * 10 ^ bs.length := this
        _ ≤ ((acc + 1) * 10) * 10 ^ bs.length := hle
        _ = (acc + 1) * 10 ^ (b :: bs).length := by
          simp only [List.length_cons, pow_succ]; ring
    · simp at h

theorem setStringBase10_lt (src : List Nat) (n : Int) (h : setStringBase10 src = some n) :
    n.toNat < 58 ^ src.length := by
  have key : ∀ (bs : List Nat) (m : Nat), parseDigits bs 0 = some m →
      bs.length ≤ src.length → m < 58 ^ src.length := by
    intro bs m hm hlen
    have h1 := parseDigits_lt bs 0 m hm
    simp only [zero_add, one_mul] at h1
    calc m < 10 ^ bs.length := h1
      _ ≤ 10 ^ src.length := Nat.pow_le_pow_right (by norm_num) hlen
      _ ≤ 58 ^ src.length := Nat.pow_le_pow_left (by norm_num) _
  unfold setStringBase10 at h
  split at h
  · simp at h
  · rename_i b bs
    split at h
    · split at h
      · simp at h
      · simp only [Option.map_eq_some'] at h
        obtain ⟨m, _, rfl⟩ := h
        have : (-(m : Int)).toNat = 0 := by
          apply Int.toNat_eq_zero.mpr
          omega
        rw [this]
        positivity
    · split at h
      · split at h
        · simp at h
        · simp only [Option.map_eq_some'] at h
          obtain ⟨m, hm, rfl⟩ := h
          simpa using key bs m hm (by simp)
      · simp only [Option.map_eq_some'] at h
        obtain ⟨m, hm, rfl⟩ := h
        simpa using key (b :: bs) m hm (by simp)

/-- The loop of `Encode` always has enough iterations: for every numeral that parses, the
loop bounded by `len(src)` yields all base-58 digits of the number. -/
theorem Encode_loop_complete (src : List Nat) (n : Int) (h : setStringBase10 src = some n) :
    base58Loop src.length n.toNat
      = (Nat.digits 58 n.toNat).map (fun d => bitcoinAlphabet.getD d '1') :=
  base58Loop_eq_digits _ _ (setStringBase10_lt src n h)

/-! ## The code generator -/

theorem generatedNumber_lt (u : String) : generatedNumber u < 18446744073709551616 :=
  Nat.mod_lt _ (by norm_num)

theorem digits58_length_ge (n : Nat) (h : 58 ^ 7 ≤ n) : 8 ≤ (Nat.digits 58 n).length := by
  by_contra hlt
  have hle : (Nat.digits 58 n).length ≤ 7 := by omega
  have h1 : n < 58 ^ (Nat.digits 58 n).length := Nat.lt_base_pow_length_digits (by norm_num)
  have h2 : 58 ^ (Nat.digits 58 n).length ≤ 58 ^ 7 := Nat.pow_le_pow_right (by norm_num) hle
  omega

theorem digits58_length_lt (n : Nat) (h : n < 58 ^ 7) : (Nat.digits 58 n).length < 8 := by
  by_cases h0 : n = 0
  · subst h0; simp
  · have h1 := Nat.base_pow_length_digits_le 58 n (by norm_num) h0
    have h2 : 58 ^ (Nat.digits 58 n).length < 58 ^ 8 := by
      have : 58 * n < 58 ^ 8 := by
        have : (58 : Nat) ^ 8 = 58 * 58 ^ 7 := by norm_num
        omega
      omega
    exact (Nat.pow_lt_pow_iff_right (by norm_num)).mp h2

/-- The string that `GenerateShortLink` slices is the base-58 numeral of the generated
number, in the Bitcoin alphabet. -/
theorem finalString_eq_numeral (u : String) (h0 : generatedNumber u ≠ 0) :
    finalString u
      = ((Nat.digits 58 (generatedNumber u)).map (fun d => bitcoinAlphabet.getD d '1')).reverse := by
  rw [finalString, base58Encoded, Encode_formatDecimal _ (generatedNumber_lt u) h0]
  rfl

theorem finalString_zero (u : String) (h0 : generatedNumber u = 0) : finalString u = ['1'] := by
  rw [finalString, h0]
  decide

theorem finalString_length (u : String) (h0 : generatedNumber u ≠ 0) :
    (finalString u).length = (Nat.digits 58 (generatedNumber u)).length := by
  rw [finalString_eq_numeral u h0]; simp

/-- The slice panics exactly when the generated number is below `58 ^ 7`. -/
theorem GenerateShortLink_eq_none_iff (u : String) :
    GenerateShortLink u = none ↔ generatedNumber u < 58 ^ 7 := by
  unfold GenerateShortLink
  by_cases h0 : generatedNumber u = 0
  · simp [finalString_zero u h0, h0]
  · simp only [finalString_length u h0]
    constructor
    · intro h
      by_contra hge
      have := digits58_length_ge _ (Nat.le_of_not_lt hge)
      simp [this] at h
    · intro h
      have := digits58_length_lt _ h
      simp
      omega

theorem GenerateShortLink_of_ge (u : String) (h : 58 ^ 7 ≤ generatedNumber u) :
    GenerateShortLink u = some (String.mk
      ((((Nat.digits 58 (generatedNumber u)).map
        (fun d => bitcoinAlphabet.getD d '1')).reverse).take 8)) := by
  have h0 : generatedNumber u ≠ 0 := by
    intro h0; rw [h0] at h; norm_num at h
  have hlen := digits58_length_ge _ h
  unfold GenerateShortLink
  simp only [finalString_length u h0, hlen, if_true]
  rw [finalString_eq_numeral u h0]

/-! ### Alphabet -/

theorem getD_mem_bitcoinAlphabet (d : Nat) (hd : d < 58) :
    bitcoinAlphabet.getD d '1' ∈ bitcoinAlphabet := by
  have hlen : d < bitcoinAlphabet.length := by
    have : bitcoinAlphabet.length = 58 := by decide
    omega
  rw [List.getD_eq_getElem _ _ hlen]
  exact List.getElem_mem _

theorem base58Loop_mem (fuel n : Nat) : ∀ c ∈ base58Loop fuel n, c ∈ bitcoinAlphabet := by
  induction fuel generalizing n with
  | zero => intro c hc; simp [base58Loop] at hc
  | succ k ih =>
    intro c hc
    rw [base58Loop] at hc
    split at hc
    · rcases List.mem_cons.mp hc with h | h
      · rw [h]; exact getD_mem_bitcoinAlphabet _ (Nat.mod_lt _ (by norm_num))
      · exact ih _ _ h
    · simp at hc

theorem Encode_mem (src : List Nat) (out : List Char) (h : Encode src = some out) :
    ∀ c ∈ out, c ∈ bitcoinAlphabet := by
  unfold Encode at h
  split at h
  · simp at h; subst h; simp
  · split at h
    · simp at h
    · split at h
      · simp at h
      · simp only [Option.some.injEq] at h
        subst h
        intro c hc
        rcases List.mem_append.mp hc with hc | hc
        · rw [List.mem_replicate] at hc
          rw [hc.2]
          exact getD_mem_bitcoinAlphabet 0 (by norm_num)
        · exact base58Loop_mem _ _ c (List.mem_reverse.mp hc)

theorem base58Encoded_mem (bytes : List Nat) : ∀ c ∈ base58Encoded bytes, c ∈ bitcoinAlphabet := by
  intro c hc
  unfold base58Encoded at hc
  cases h : Encode bytes with
  | none => simp [h] at hc
  | some out =>
    simp [h] at hc
    exact Encode_mem bytes out h c hc

theorem GenerateShortLink_chars (u : String) (code : String)
    (h : GenerateShortLink u = some code) :
    code.length = 8 ∧ ∀ c ∈ code.data, c ∈ bitcoinAlphabet ∧ c ≠ '0' ∧ c ≠ 'O' ∧ c ≠ 'I' ∧ c ≠ 'l' := by
  unfold GenerateShortLink at h
  simp only at h
  split at h
  · rename_i hlen
    simp only [Option.some.injEq] at h
    subst h
    refine ⟨by simp [String.length]; omega, ?_⟩
    intro c hc
    have hmem : c ∈ bitcoinAlphabet :=
      base58Encoded_mem _ c (List.mem_of_mem_take hc)
    refine ⟨hmem, ?_, ?_, ?_, ?_⟩ <;> (rintro rfl; revert hmem; decide)
  · simp at h

/-! ### The digest tail -/

theorem bigEndianBytes_length (len n : Nat) : (bigEndianBytes len n).length = len := by
  induction len with
  | zero => rfl
  | succ k ih => simp [bigEndianBytes, ih]

theorem bigEndianBytes_lt (len n : Nat) : ∀ b ∈ bigEndianBytes len n, b < 256 := by
  induction len with
  | zero => intro b hb; simp [bigEndianBytes] at hb
  | succ k ih =>
    intro b hb
    rcases List.mem_cons.mp hb with h | h
    · rw [h]; exact Nat.mod_lt _ (by norm_num)
    · exact ih b h

theorem foldl_bigEndian (bs : List Nat) (acc : Nat) :
    bs.foldl (fun a b => a * 256 + b) acc = acc * 256 ^ bs.length + bigEndianValue bs := by
  induction bs generalizing acc with
  | nil => simp [bigEndianValue]
  | cons b bs ih =>
    rw [bigEndianValue, List.foldl_cons, List.foldl_cons, ih, ih (0 * 256 + b)]
    simp only [List.length_cons, pow_succ]
    ring

theorem bigEndianValue_append (xs ys : List Nat) :
    bigEndianValue (xs ++ ys) = bigEndianValue xs * 256 ^ ys.length + bigEndianValue ys := by
  rw [bigEndianValue, List.foldl_append, foldl_bigEndian]
  rfl

theorem bigEndianValue_lt (bs : List Nat) (h : ∀ b ∈ bs, b < 256) :
    bigEndianValue bs < 256 ^ bs.length := by
  induction bs using List.reverseRecOn with
  | nil => simp [bigEndianValue]
  | append_singleton bs b ih =>
    have hb : b < 256 := h b (by simp)
    have ih' := ih (fun x hx => h x (by simp [hx]))
    rw [bigEndianValue_append]
    have hsingle : bigEndianValue [b] = b := by simp [bigEndianValue]
    rw [hsingle]
    simp only [List.length_append, List.length_singleton, pow_succ, pow_zero, one_mul]
    have : bigEndianValue bs + 1 ≤ 256 ^ bs.length := ih'
    nlinarith

theorem sha256Blocks_length (k : Nat) (bs hs : List Nat) (h : hs.length = 8) :
    (sha256Blocks k bs hs).length = 8 := by
  induction k generalizing bs hs with
  | zero => simpa [sha256Blocks] using h
  | succ k ih =>
    rw [sha256Blocks]
    exact ih _ _ (by simp [sha256Block])

theorem sha256_length (msg : List Nat) : (sha256 msg).length = 32 := by
  have h8 := sha256Blocks_length ((sha256Pad msg).length / 64) (sha256Pad msg) sha256Init rfl
  unfold sha256
  simp only
  generalize sha256Blocks ((sha256Pad msg).length / 64) (sha256Pad msg) sha256Init = ws at h8 ⊢
  match ws, h8 with
  | [a, b, c, d, e, f, g, h], _ => simp [bigEndianBytes_length]

theorem sha256_lt (msg : List Nat) : ∀ b ∈ sha256 msg, b < 256 := by
  intro b hb
  unfold sha256 at hb
  simp only [List.mem_flatMap] at hb
  obtain ⟨w, _, hw⟩ := hb
  exact bigEndianBytes_lt 4 w b hw

/-- The generated number is the big-endian value of the last 8 bytes of the digest. -/
theorem generatedNumber_eq_tail (u : String) :
    generatedNumber u = bigEndianValue ((sha256Of u).drop 24) := by
  have hlen : (sha256Of u).length = 32 := sha256_length _
  have hlt : ∀ b ∈ sha256Of u, b < 256 := sha256_lt _
  have hdrop : ((sha256Of u).drop 24).length = 8 := by simp [hlen]
  have htail : bigEndianValue ((sha256Of u).drop 24) < 256 ^ 8 := by
    have := bigEndianValue_lt ((sha256Of u).drop 24) (fun b hb => hlt b (List.mem_of_mem_drop hb))
    rwa [hdrop] at this
  unfold generatedNumber
  conv_lhs => rw [← List.take_append_drop 24 (sha256Of u)]
  rw [bigEndianValue_append, hdrop]
  have h64 : (256 : Nat) ^ 8 = 18446744073709551616 := by norm_num
  rw [h64] at htail ⊢
  rw [Nat.mul_add_mod_of_lt htail]

/-- The encoder on decimal numerals: `100 = 1 * 58 + 42`, a leading `'1'` per leading zero,
and the largest `uint64`. -/
theorem Encode_examples :
    Encode [49, 48, 48] = some ['2', 'j']
    ∧ Encode [48] = some ['1']
    ∧ Encode [48, 48, 53, 56] = some ['1', '1', '2', '1']
    ∧ Encode (formatDecimal 18446744073709551615)
      = some ['j', 'p', 'X', 'C', 'Z', 'e', 'd', 'G', 'f', 'V', 'Q'] := by
  decide

/-- The spec-worded encoder also has enough iterations: a payload of `k` bytes is below
`58 ^ (2 * k)`. -/
theorem specBase58OfBytes_loop_complete (payload : List Nat) (h : ∀ b ∈ payload, b < 256) :
    base58Loop (2 * payload.length) (bigEndianValue payload)
      = (Nat.digits 58 (bigEndianValue payload)).map (fun d => bitcoinAlphabet.getD d '1') := by
  apply base58Loop_eq_digits
  calc bigEndianValue payload < 256 ^ payload.length := bigEndianValue_lt payload h
    _ ≤ (58 ^ 2) ^ payload.length := Nat.pow_le_pow_left (by norm_num) _
    _ = 58 ^ (2 * payload.length) := by rw [← pow_mul]

/-! ## The upsert coordinator and the handler -/

theorem selectRows_eq_nil_iff (rows : Table) (id : String) :
    selectRows rows id = [] ↔ ∀ r ∈ rows, r.ID ≠ id := by
  simp [selectRows, List.filter_eq_nil_iff]

theorem selectRows_mem (rows : Table) (id : String) (row : URLEntry) (rest : List URLEntry)
    (h : selectRows rows id = row :: rest) : row ∈ rows ∧ row.ID = id := by
  have hmem : row ∈ selectRows rows id := by rw [h]; exact List.mem_cons_self _ _
  simpa [selectRows, List.mem_filter] using hmem

/-- A row that `res.Next()` makes available was read without failure, is a row of the table
and has the id asked for. -/
theorem rowsNext_some (db : Database) (id : String) (row : URLEntry)
    (h : rowsNext db id = some row) :
    db.faults.next = none ∧ row ∈ db.rows ∧ row.ID = id := by
  unfold rowsNext at h
  cases hn : db.faults.next with
  | some e => simp [hn] at h
  | none =>
    simp only [hn] at h
    cases hsel : selectRows db.rows id with
    | nil => simp [hsel] at h
    | cons r rest =>
      simp only [hsel, List.head?_cons, Option.some.injEq] at h
      subst h
      exact ⟨rfl, selectRows_mem _ _ _ _ hsel⟩

/-- The call `res.Next()` returns false exactly when reading the rows failed or no row has
the id. -/
theorem rowsNext_eq_none_iff (db : Database) (id : String) :
    rowsNext db id = none ↔ (db.faults.next ≠ none ∨ ∀ r ∈ db.rows, r.ID ≠ id) := by
  unfold rowsNext
  cases hn : db.faults.next with
  | some e => simp
  | none =>
    cases hsel : selectRows db.rows id with
    | nil => simpa using (selectRows_eq_nil_iff _ _).mp hsel
    | cons r rest =>
      have hr := selectRows_mem _ _ _ _ hsel
      simp only [List.head?_cons, ne_eq, not_true_eq_false, false_or]
      constructor
      · intro h
        cases h
      · intro hall
        exact absurd hr.2 (hall r hr.1)

theorem rowsNext_of_miss (db : Database) (id : String) (hmiss : ∀ r ∈ db.rows, r.ID ≠ id) :
    rowsNext db id = none :=
  (rowsNext_eq_none_iff db id).mpr (Or.inr hmiss)

/-- With the rows read without failure, a row with the id is made available. -/
theorem rowsNext_of_hit (db : Database) (id : String) (hnext : db.faults.next = none)
    (hhit : ∃ r ∈ db.rows, r.ID = id) : ∃ row, rowsNext db id = some row := by
  cases h : rowsNext db id with
  | some row => exact ⟨row, rfl⟩
  | none =>
    rcases (rowsNext_eq_none_iff db id).mp h with h1 | h1
    · exact absurd hnext h1
    · obtain ⟨r, hr, hid⟩ := hhit
      exact absurd hid (h1 r hr)

/-- The three ways a call can end, as far as the table is concerned. -/
theorem InsertURL_cases (db : Database) (entry : URLEntry) :
    ((InsertURL db entry).err ≠ none ∧ (InsertURL db entry).rows = db.rows)
    ∨ ((InsertURL db entry).err = none ∧ rowsNext db entry.ID = none
        ∧ (InsertURL db entry).rows = db.rows ++ [entry])
    ∨ ((InsertURL db entry).err = none ∧ ∃ row, rowsNext db entry.ID = some row
        ∧ (InsertURL db entry).rows
          = db.rows.map (fun r => if r.ID = row.ID then { r with Updated_At := row.Updated_At } else r)) := by
  unfold InsertURL
  cases hq : db.faults.query with
  | some err => simp
  | none =>
    cases hsel : rowsNext db entry.ID with
    | none =>
      cases hx : db.faults.exec with
      | some err => simp
      | none => simp [execStatement]
    | some row =>
      cases hs : db.faults.scan with
      | some err => simp
      | none =>
        cases hx : db.faults.exec with
        | some err => simp
        | none => simp [execStatement]

theorem update_self_of_unique (rows : Table) (row : URLEntry) (hu : UniqueIds rows)
    (hmem : row ∈ rows) :
    rows.map (fun r => if r.ID = row.ID then { r with Updated_At := row.Updated_At } else r)
      = rows := by
  have hinj := List.inj_on_of_nodup_map hu
  conv_rhs => rw [← List.map_id rows]
  apply List.map_congr_left
  intro r hr
  by_cases hid : r.ID = row.ID
  · have : r = row := hinj hr hmem hid
    subst this
    simp
  · simp [hid]

/-- On a table with unique ids, and with the rows read without failure, a call either
leaves the table as it is or appends the entry, whose id was absent. -/
theorem InsertURL_rows_of_unique (db : Database) (entry : URLEntry) (hu : UniqueIds db.rows)
    (hnext : db.faults.next = none) :
    (InsertURL db entry).rows = db.rows
    ∨ ((∀ r ∈ db.rows, r.ID ≠ entry.ID) ∧ (InsertURL db entry).rows = db.rows ++ [entry]) := by
  rcases InsertURL_cases db entry with h | h | h
  · exact Or.inl h.2
  · rcases (rowsNext_eq_none_iff _ _).mp h.2.1 with h1 | h1
    · exact absurd hnext h1
    · exact Or.inr ⟨h1, h.2.2⟩
  · obtain ⟨_, row, hsel, hrows⟩ := h
    left
    rw [hrows]
    exact update_self_of_unique db.rows row hu (rowsNext_some _ _ _ hsel).2.1

theorem UniqueIds_append (rows : Table) (entry : URLEntry) (hu : UniqueIds rows)
    (hmiss : ∀ r ∈ rows, r.ID ≠ entry.ID) : UniqueIds (rows ++ [entry]) := by
  unfold UniqueIds at *
  rw [List.map_append, List.nodup_append]
  refine ⟨hu, by simp, ?_⟩
  intro a ha hb
  simp only [List.map_cons, List.map_nil, List.mem_singleton] at hb
  obtain ⟨r, hr, hra⟩ := List.mem_map.mp ha
  exact hmiss r hr (hra.trans hb)

/-- With the rows read without failure, a call keeps the ids unique. -/
theorem InsertURL_preserves_unique (db : Database) (entry : URLEntry) (hu : UniqueIds db.rows)
    (hnext : db.faults.next = none) :
    UniqueIds (InsertURL db entry).rows := by
  rcases InsertURL_rows_of_unique db entry hu hnext with h | ⟨hmiss, h⟩
  · rw [h]; exact hu
  · rw [h]; exact UniqueIds_append _ _ hu hmiss

theorem runCalls_append (rows : Table) (calls more : List InsertCall) :
    runCalls rows (calls ++ more) = runCalls (runCalls rows calls) more := by
  simp [runCalls, List.foldl_append]

theorem runCalls_cons (rows : Table) (call : InsertCall) (calls : List InsertCall) :
    runCalls rows (call :: calls) = runCalls (InsertURL ⟨rows, call.1⟩ call.2).rows calls := by
  simp [runCalls]

/-- Sequences of calls during which the rows are always read without failure keep the ids
unique. -/
theorem runCalls_unique (rows : Table) (calls : List InsertCall) (hu : UniqueIds rows)
    (hnext : ∀ call ∈ calls, call.1.next = none) :
    UniqueIds (runCalls rows calls) := by
  induction calls generalizing rows with
  | nil => simpa [runCalls] using hu
  | cons call calls ih =>
    rw [runCalls_cons]
    exact ih _ (InsertURL_preserves_unique ⟨rows, call.1⟩ call.2 hu
        (hnext call (List.mem_cons_self _ _)))
      (fun c hc => hnext c (List.mem_cons_of_mem _ hc))

/-- On a table with unique ids every row survives, unchanged, a sequence of calls during
which the rows are always read without failure. -/
theorem runCalls_mem_of_unique (rows : Table) (calls : List InsertCall) (hu : UniqueIds rows)
    (hnext : ∀ call ∈ calls, call.1.next = none)
    (r : URLEntry) (hr : r ∈ rows) : r ∈ runCalls rows calls := by
  induction calls generalizing rows with
  | nil => simpa [runCalls] using hr
  | cons call calls ih =>
    have hn := hnext call (List.mem_cons_self _ _)
    have hu' := InsertURL_preserves_unique ⟨rows, call.1⟩ call.2 hu hn
    have hr' : r ∈ (InsertURL ⟨rows, call.1⟩ call.2).rows := by
      rcases InsertURL_rows_of_unique ⟨rows, call.1⟩ call.2 hu hn with h | ⟨_, h⟩
      · rw [h]; exact hr
      · rw [h]; exact List.mem_append_left _ hr
    rw [runCalls_cons]
    exact ih _ hu' (fun c hc => hnext c (List.mem_cons_of_mem _ hc)) hr'

theorem eq_of_unique (rows : Table) (hu : UniqueIds rows) (r r' : URLEntry)
    (hr : r ∈ rows) (hr' : r' ∈ rows) (hid : r'.ID = r.ID) : r' = r :=
  List.inj_on_of_nodup_map hu hr' hr hid

/-- Two calls with the same id, on a store without failures and a table without the id: both
succeed and the row of the first call is left as the first call wrote it. -/
theorem InsertURL_twice (rows : Table) (id u u' : String) (t1 t2 : Nat)
    (hmiss : ∀ r ∈ rows, r.ID ≠ id) :
    (InsertURL ⟨rows, noFaults⟩ ⟨id, u, t1, t1⟩).err = none
    ∧ (InsertURL ⟨(InsertURL ⟨rows, noFaults⟩ ⟨id, u, t1, t1⟩).rows, noFaults⟩
        ⟨id, u', t2, t2⟩).err = none
    ∧ (InsertURL ⟨(InsertURL ⟨rows, noFaults⟩ ⟨id, u, t1, t1⟩).rows, noFaults⟩
        ⟨id, u', t2, t2⟩).rows = rows ++ [⟨id, u, t1, t1⟩] := by
  have hsel : selectRows rows id = [] := (selectRows_eq_nil_iff _ _).mpr hmiss
  have h1 : (InsertURL ⟨rows, noFaults⟩ ⟨id, u, t1, t1⟩).err = none
      ∧ (InsertURL ⟨rows, noFaults⟩ ⟨id, u, t1, t1⟩).rows = rows ++ [⟨id, u, t1, t1⟩] := by
    simp [InsertURL, rowsNext, noFaults, hsel, execStatement]
  have hsel2 : selectRows (rows ++ [⟨id, u, t1, t1⟩]) id = [⟨id, u, t1, t1⟩] := by
    have := hsel
    simp only [selectRows] at this ⊢
    rw [List.filter_append, this]
    simp
  have hmap : (rows ++ [(⟨id, u, t1, t1⟩ : URLEntry)]).map
      (fun r => if r.ID = id then { r with Updated_At := t1 } else r)
      = rows ++ [⟨id, u, t1, t1⟩] := by
    rw [List.map_append]
    congr 1
    · conv_rhs => rw [← List.map_id rows]
      apply List.map_congr_left
      intro r hr
      simp [hmiss r hr]
    · simp
  rw [h1.2]
  refine ⟨h1.1, ?_, ?_⟩
  · simp [InsertURL, rowsNext, noFaults, hsel2]
  · simp [InsertURL, rowsNext, noFaults, hsel2, execStatement, hmap]

theorem InsertURL_miss (db : Database) (entry : URLEntry)
    (hmiss : ∀ r ∈ db.rows, r.ID ≠ entry.ID) (hok : (InsertURL db entry).err = none) :
    (InsertURL db entry).rows = db.rows ++ [entry] := by
  rcases InsertURL_cases db entry with h | h | h
  · exact absurd hok h.1
  · exact h.2.2
  · obtain ⟨_, row, hsel, _⟩ := h
    rw [rowsNext_of_miss db entry.ID hmiss] at hsel
    cases hsel

/-- With the rows read without failure and a row with `entry.ID` in the table, a successful
call keeps the rows position by position, each with its `ID`, `Redirect_URL` and
`Created_At`, and leaves every row with another id as it was. -/
theorem InsertURL_frame_of_rows_read (db : Database) (entry : URLEntry)
    (hnext : db.faults.next = none)
    (hhit : ∃ r ∈ db.rows, r.ID = entry.ID) (hok : (InsertURL db entry).err = none) :
    List.Forall₂
      (fun r r' => r'.ID = r.ID ∧ r'.Redirect_URL = r.Redirect_URL
        ∧ r'.Created_At = r.Created_At ∧ (r.ID ≠ entry.ID → r' = r))
      db.rows (InsertURL db entry).rows := by
  rcases InsertURL_cases db entry with h | h | h
  · exact absurd hok h.1
  · obtain ⟨row, hrow⟩ := rowsNext_of_hit db entry.ID hnext hhit
    rw [h.2.1] at hrow
    cases hrow
  · obtain ⟨_, row, hsel, hrows⟩ := h
    have hrow := (rowsNext_some _ _ _ hsel).2.2
    rw [hrows, List.forall₂_map_right_iff, List.forall₂_same]
    intro r _
    by_cases hid : r.ID = row.ID
    · simp [hid, hrow]
    · simp [hid]

/-- Along calls during which the rows are always read without failure, from a table with
unique ids, a row keeps its `Created_At` and its `Updated_At` does not decrease. -/
theorem runCalls_timestamps_of_rows_read (rows : Table) (calls more : List InsertCall)
    (r : URLEntry) (hrows : UniqueIds rows)
    (hnext : ∀ call ∈ calls ++ more, call.1.next = none) (hr : r ∈ runCalls rows calls) :
    (∃ r' ∈ runCalls rows (calls ++ more), r'.ID = r.ID)
    ∧ ∀ r' ∈ runCalls rows (calls ++ more), r'.ID = r.ID →
        r'.Created_At = r.Created_At ∧ r.Updated_At ≤ r'.Updated_At := by
  have hn1 : ∀ call ∈ calls, call.1.next = none :=
    fun c hc => hnext c (List.mem_append_left _ hc)
  have hn2 : ∀ call ∈ more, call.1.next = none :=
    fun c hc => hnext c (List.mem_append_right _ hc)
  have hu : UniqueIds (runCalls rows calls) := runCalls_unique rows calls hrows hn1
  have hmem : r ∈ runCalls rows (calls ++ more) := by
    rw [runCalls_append]
    exact runCalls_mem_of_unique _ more hu hn2 r hr
  have hu' : UniqueIds (runCalls rows (calls ++ more)) := runCalls_unique rows _ hrows hnext
  refine ⟨⟨r, hmem, rfl⟩, ?_⟩
  intro r' hr' hid
  have : r' = r := eq_of_unique _ hu' r r' hmem hr' hid
  subst this
  exact ⟨rfl, Nat.le_refl _⟩

theorem PutURL_of_generated (db : Database) (u id : String) (t : Nat)
    (hgen : GenerateShortLink u = some id) (hu : u ≠ "") (hping : db.faults.ping = none) :
    (PutURL db (some ⟨u⟩) t).calls = [.GenerateShortLink u, .InsertURL ⟨id, u, t, t⟩]
    ∧ (PutURL db (some ⟨u⟩) t).rows = (InsertURL db ⟨id, u, t, t⟩).rows
    ∧ ((InsertURL db ⟨id, u, t, t⟩).err = none →
        (PutURL db (some ⟨u⟩) t).response
          = some (.JSON 200 t ("http://localhost:8080/" ++ id)))
    ∧ (∀ err, (InsertURL db ⟨id, u, t, t⟩).err = some err →
        (PutURL db (some ⟨u⟩) t).response
          = some (.HTTPError 500 ("Unable to shorten URL: " ++ err))) := by
  unfold PutURL
  simp only [hping, hu, if_false, hgen]
  cases herr : (InsertURL db ⟨id, u, t, t⟩).err with
  | none => simp [herr]
  | some e => simp [herr]

theorem PutURL_empty_url (db : Database) (t : Nat) (hping : db.faults.ping = none) :
    PutURL db (some ⟨""⟩) t
      = { response := some (.HTTPError 400 "Missing URL parameter"), rows := db.rows, calls := [] } := by
  simp [PutURL, hping]

theorem PutURL_json_inv (db : Database) (u : String) (t : Nat) (url : String) (code ts : Nat)
    (h : (PutURL db (some ⟨u⟩) t).response = some (.JSON code ts url)) :
    u ≠ "" ∧ db.faults.ping = none ∧ ∃ id, GenerateShortLink u = some id
      ∧ (InsertURL db ⟨id, u, t, t⟩).err = none := by
  unfold PutURL at h
  cases hping : db.faults.ping with
  | some e => simp [hping] at h
  | none =>
    simp only [hping] at h
    by_cases hu : u = ""
    · simp [hu] at h
    · simp only [hu, if_false] at h
      cases hgen : GenerateShortLink u with
      | none => simp [hgen] at h
      | some id =>
        simp only [hgen] at h
        cases herr : (InsertURL db ⟨id, u, t, t⟩).err with
        | some e => simp [herr] at h
        | none => exact ⟨hu, rfl, id, rfl, herr⟩

/-! ## The claims -/

set_option maxRecDepth 100000


/-- C1 (the code at the failing input). Starting from the empty table, with
`GenerateShortLink "https://example.com/a" = "hBreFgHC"`, the call with timestamps `1` and
then the call with timestamps `2` both succeed and leave the single row
`("hBreFgHC", "https://example.com/a", 1, 1)`: the second call binds the scanned row's
`Updated_At` to the update statement, so `updated_at` stays `1` and is not set to `2`. -/
theorem InsertURL_twice_updated_at_stale :
    GenerateShortLink "https://example.com/a" = some "hBreFgHC"
    ∧ (InsertURL ⟨[], noFaults⟩ ⟨"hBreFgHC", "https://example.com/a", 1, 1⟩).err = none
    ∧ (InsertURL ⟨(InsertURL ⟨[], noFaults⟩ ⟨"hBreFgHC", "https://example.com/a", 1, 1⟩).rows,
        noFaults⟩ ⟨"hBreFgHC", "https://example.com/a", 2, 2⟩).err = none
    ∧ (InsertURL ⟨(InsertURL ⟨[], noFaults⟩ ⟨"hBreFgHC", "https://example.com/a", 1, 1⟩).rows,
        noFaults⟩ ⟨"hBreFgHC", "https://example.com/a", 2, 2⟩).rows
        = [⟨"hBreFgHC", "https://example.com/a", 1, 1⟩] := by
  decide!

/-- C2 (the code at the failing input). For the URL `"https://example.com/15344520"` the low
64 bits of the digest are `1698041677343 < 58 ^ 7`, the base58 string is the 7-character
`"mc58Snr"`, and the slice `finalString[:8]` panics: `GenerateShortLink` returns no code. -/
theorem GenerateShortLink_short_numeral_panics :
    generatedNumber "https://example.com/15344520" = 1698041677343
    ∧ finalString "https://example.com/15344520" = ['m', 'c', '5', '8', 'S', 'n', 'r']
    ∧ GenerateShortLink "https://example.com/15344520" = none := by
  decide!

/-- C3 (counterexample). For `"https://example.com/a"` the code returns `"hBreFgHC"`, the
first 8 characters of the base-58 numeral of `17312802208534018732`, while base58-encoding
the ASCII bytes of the decimal string `"17312802208534018732"` as a payload gives a string
that starts with `"gmYndKVt"`. -/
theorem GenerateShortLink_ne_specGenerate :
    generatedNumber "https://example.com/a" = 17312802208534018732
    ∧ GenerateShortLink "https://example.com/a" = some "hBreFgHC"
    ∧ specGenerate "https://example.com/a" = some "gmYndKVt"
    ∧ GenerateShortLink "https://example.com/a" ≠ specGenerate "https://example.com/a" := by
  decide!

/-- C3 (amended). With `n` the low 64 bits of the SHA-256 digest of `u` read big-endian,
which is the big-endian value of the last 8 bytes of the digest, `Encode` reads the decimal
string of `n` back as the number `n`, and the string that `GenerateShortLink` slices is the
base-58 numeral of `n` in the Bitcoin alphabet, most significant digit first (`"1"` when
`n = 0`); when `58 ^ 7 ≤ n` the result is the first 8 characters of that numeral. -/
theorem GenerateShortLink_eq_numeral (u : String) :
    generatedNumber u = bigEndianValue (sha256Of u) % 2 ^ 64
    ∧ generatedNumber u = bigEndianValue ((sha256Of u).drop 24)
    ∧ setStringBase10 (formatDecimal (generatedNumber u)) = some (generatedNumber u : Int)
    ∧ (generatedNumber u ≠ 0 → finalString u
        = ((Nat.digits 58 (generatedNumber u)).map (fun d => bitcoinAlphabet.getD d '1')).reverse)
    ∧ (generatedNumber u = 0 → finalString u = ['1'])
    ∧ (58 ^ 7 ≤ generatedNumber u → GenerateShortLink u = some (String.mk
        ((((Nat.digits 58 (generatedNumber u)).map
          (fun d => bitcoinAlphabet.getD d '1')).reverse).take 8))) :=
  ⟨rfl, generatedNumber_eq_tail u,
    setStringBase10_formatDecimal _ (generatedNumber_lt u),
    finalString_eq_numeral u, finalString_zero u, GenerateShortLink_of_ge u⟩

theorem GenerateShortLink_eq_numeral_witness :
    58 ^ 7 ≤ generatedNumber "https://example.com/b"
    ∧ GenerateShortLink "https://example.com/b" = some (String.mk
        ((((Nat.digits 58 (generatedNumber "https://example.com/b")).map
          (fun d => bitcoinAlphabet.getD d '1')).reverse).take 8))
    ∧ GenerateShortLink "https://example.com/b" = some "GTjVbHmN" :=
  ⟨by decide!, (GenerateShortLink_eq_numeral "https://example.com/b").2.2.2.2.2 (by decide!),
   by decide!⟩

/-- C4. Every code that `GenerateShortLink` returns has 8 characters, each of them in the
58-character Bitcoin base58 alphabet, and none of them is `0`, `O`, `I` or `l`. -/
theorem GenerateShortLink_alphabet (u : String) (code : String)
    (h : GenerateShortLink u = some code) :
    bitcoinAlphabet.length = 58 ∧ bitcoinAlphabet.Nodup ∧ code.length = 8
    ∧ ∀ c ∈ code.data, c ∈ bitcoinAlphabet ∧ c ≠ '0' ∧ c ≠ 'O' ∧ c ≠ 'I' ∧ c ≠ 'l' := by
  have := GenerateShortLink_chars u code h
  exact ⟨by decide, by decide, this.1, this.2⟩

theorem GenerateShortLink_alphabet_witness :
    GenerateShortLink "https://example.com/c" = some "WoYRJ8p3"
    ∧ ∀ c ∈ ("WoYRJ8p3" : String).data,
        c ∈ bitcoinAlphabet ∧ c ≠ '0' ∧ c ≠ 'O' ∧ c ≠ 'I' ∧ c ≠ 'l' :=
  ⟨by decide!, (GenerateShortLink_alphabet "https://example.com/c" "WoYRJ8p3" (by decide!)).2.2.2⟩


/-- C5. When the table holds no row with `entry.ID`, a successful `InsertURL` leaves the
table with exactly the row `entry` appended, all earlier rows as they were; and a
successful `PutURL` for a URL `u` whose code is `entry.ID` passes the entry
`(entry.ID, u, t, t)` to `InsertURL` and appends that row, so `created_at = updated_at = t`. -/
theorem InsertURL_insert_on_miss (db : Database) (entry : URLEntry)
    (hmiss : ∀ r ∈ db.rows, r.ID ≠ entry.ID) (hok : (InsertURL db entry).err = none) :
    (InsertURL db entry).rows = db.rows ++ [entry]
    ∧ ∀ (u : String) (t : Nat), GenerateShortLink u = some entry.ID →
        (PutURL db (some ⟨u⟩) t).response
          = some (.JSON 200 t ("http://localhost:8080/" ++ entry.ID)) →
        (PutURL db (some ⟨u⟩) t).calls
          = [.GenerateShortLink u, .InsertURL ⟨entry.ID, u, t, t⟩]
        ∧ (PutURL db (some ⟨u⟩) t).rows = db.rows ++ [⟨entry.ID, u, t, t⟩] := by
  refine ⟨InsertURL_miss db entry hmiss hok, ?_⟩
  intro u t hgen hresp
  obtain ⟨hu, hping, id, hid, herr⟩ := PutURL_json_inv db u t _ _ _ hresp
  have hideq : id = entry.ID := by
    rw [hgen] at hid
    exact (Option.some.inj hid).symm
  subst hideq
  have hput := PutURL_of_generated db u entry.ID t hgen hu hping
  refine ⟨hput.1, ?_⟩
  rw [hput.2.1]
  exact InsertURL_miss db ⟨entry.ID, u, t, t⟩ hmiss herr

theorem InsertURL_insert_on_miss_witness :
    (∀ r ∈ ([⟨"WoYRJ8p3", "https://example.com/c", 1, 1⟩] : Table), r.ID ≠ "hBreFgHC")
    ∧ (InsertURL ⟨[⟨"WoYRJ8p3", "https://example.com/c", 1, 1⟩], noFaults⟩
        ⟨"hBreFgHC", "https://example.com/a", 7, 7⟩).rows
      = [⟨"WoYRJ8p3", "https://example.com/c", 1, 1⟩, ⟨"hBreFgHC", "https://example.com/a", 7, 7⟩]
    ∧ (PutURL ⟨[⟨"WoYRJ8p3", "https://example.com/c", 1, 1⟩], noFaults⟩
        (some ⟨"https://example.com/a"⟩) 7).rows
      = [⟨"WoYRJ8p3", "https://example.com/c", 1, 1⟩, ⟨"hBreFgHC", "https://example.com/a", 7, 7⟩] :=
  ⟨by decide,
   (InsertURL_insert_on_miss ⟨[⟨"WoYRJ8p3", "https://example.com/c", 1, 1⟩], noFaults⟩
      ⟨"hBreFgHC", "https://example.com/a", 7, 7⟩ (by decide) (by decide)).1,
   ((InsertURL_insert_on_miss ⟨[⟨"WoYRJ8p3", "https://example.com/c", 1, 1⟩], noFaults⟩
      ⟨"hBreFgHC", "https://example.com/a", 7, 7⟩ (by decide) (by decide)).2
      "https://example.com/a" 7 (by decide!) (by decide!)).2⟩

/-- C6 (the code at the failing input). The table holds the row
`("hBreFgHC", "https://example.com/a", 1, 2)`, the query succeeds and reading its rows
fails, so `res.Next()` is false and `res.Err()` is never read: `InsertURL` with an entry of
the same id issues the insert statement and returns `nil`, and the table has a second row
with that id. A record was added on a hit. -/
theorem InsertURL_hit_rows_unread_inserts :
    (∃ r ∈ ([⟨"hBreFgHC", "https://example.com/a", 1, 2⟩] : Table), r.ID = "hBreFgHC")
    ∧ InsertURL ⟨[⟨"hBreFgHC", "https://example.com/a", 1, 2⟩], nextFails⟩
        ⟨"hBreFgHC", "https://example.org/other", 9, 9⟩
      = { err := none,
          rows := [⟨"hBreFgHC", "https://example.com/a", 1, 2⟩,
                   ⟨"hBreFgHC", "https://example.org/other", 9, 9⟩],
          log := [⟨.QueryContext (.select_query "hBreFgHC"), none⟩,
                  ⟨.Next, some "read tcp: connection reset by peer"⟩,
                  ⟨.ExecContext
                    (.insert_query "hBreFgHC" "https://example.org/other" 9 9), none⟩] } := by
  decide

/-- C7. What `InsertURL` returns is fixed by what the store does at the query, the scan and
the execute: a failed query is returned as it is, with the table unchanged and nothing else
issued; after a successful query, with a row to scan, a failed scan is returned as it is and
no statement is executed; a failed execute, of the update after a scan or of the insert
when there is no row to scan, is returned as it is with the table unchanged; and when none
of the steps issued fails, `nil` is returned and the statement has taken effect. Hence an
error is returned if and only if the query, the scan or the execute failed, it is that
step's error, and a call issues exactly one query and at most one execute. A failure while
the rows are read is not one of these steps: it is never returned, the call goes on to the
insert. -/
theorem InsertURL_error_propagation (db : Database) (entry : URLEntry) :
    (∀ err, db.faults.query = some err →
      InsertURL db entry
        = { err := some err, rows := db.rows,
            log := [⟨.QueryContext (.select_query entry.ID), some err⟩] })
    ∧ (∀ row err, db.faults.query = none → rowsNext db entry.ID = some row →
        db.faults.scan = some err →
        InsertURL db entry
          = { err := some err, rows := db.rows,
              log := [⟨.QueryContext (.select_query entry.ID), none⟩, ⟨.Next, none⟩,
                      ⟨.Scan, some err⟩] })
    ∧ (∀ row err, db.faults.query = none → rowsNext db entry.ID = some row →
        db.faults.scan = none → db.faults.exec = some err →
        InsertURL db entry
          = { err := some err, rows := db.rows,
              log := [⟨.QueryContext (.select_query entry.ID), none⟩, ⟨.Next, none⟩,
                      ⟨.Scan, none⟩,
                      ⟨.ExecContext (.update_timestamp row.Updated_At row.ID), some err⟩] })
    ∧ (∀ err, db.faults.query = none → rowsNext db entry.ID = none →
        db.faults.exec = some err →
        InsertURL db entry
          = { err := some err, rows := db.rows,
              log := [⟨.QueryContext (.select_query entry.ID), none⟩, ⟨.Next, db.faults.next⟩,
                      ⟨.ExecContext (.insert_query entry.ID entry.Redirect_URL
                        entry.Created_At entry.Updated_At), some err⟩] })
    ∧ (∀ row, db.faults.query = none → rowsNext db entry.ID = some row →
        db.faults.scan = none → db.faults.exec = none →
        InsertURL db entry
          = { err := none,
              rows := db.rows.map
                (fun r => if r.ID = row.ID then { r with Updated_At := row.Updated_At } else r),
              log := [⟨.QueryContext (.select_query entry.ID), none⟩, ⟨.Next, none⟩,
                      ⟨.Scan, none⟩,
                      ⟨.ExecContext (.update_timestamp row.Updated_At row.ID), none⟩] })
    ∧ (db.faults.query = none → rowsNext db entry.ID = none → db.faults.exec = none →
        InsertURL db entry
          = { err := none, rows := db.rows ++ [entry],
              log := [⟨.QueryContext (.select_query entry.ID), none⟩, ⟨.Next, db.faults.next⟩,
                      ⟨.ExecContext (.insert_query entry.ID entry.Redirect_URL
                        entry.Created_At entry.Updated_At), none⟩] })
    ∧ (∀ ev ∈ (InsertURL db entry).log, ev.failure = db.faults.atStep ev.step)
    ∧ ((InsertURL db entry).err ≠ none
        ↔ ∃ ev ∈ (InsertURL db entry).log, ev.step.isNext = false ∧ ev.failure ≠ none)
    ∧ (InsertURL db entry).err
        = ((InsertURL db entry).log.filter (fun ev => !ev.step.isNext)).findSome? (·.failure)
    ∧ ((InsertURL db entry).err ≠ none → (InsertURL db entry).rows = db.rows)
    ∧ (db.faults.query = none → db.faults.next ≠ none →
        (InsertURL db entry).err = db.faults.exec)
    ∧ ((InsertURL db entry).log.filter (·.step.isQuery)).length = 1
    ∧ ((InsertURL db entry).log.filter (·.step.isExec)).length ≤ 1 := by
  have hnone : ∀ row, rowsNext db entry.ID = some row → db.faults.next = none :=
    fun row h => (rowsNext_some db entry.ID row h).1
  have hsome : db.faults.next ≠ none → rowsNext db entry.ID = none :=
    fun h => (rowsNext_eq_none_iff db entry.ID).mpr (Or.inl h)
  unfold InsertURL
  cases hq : db.faults.query with
  | some err => simp [Faults.atStep, StoreStep.isQuery, StoreStep.isExec, StoreStep.isNext, hq]
  | none =>
    cases hsel : rowsNext db entry.ID with
    | none =>
      cases hx : db.faults.exec with
      | some err =>
        simp [Faults.atStep, StoreStep.isQuery, StoreStep.isExec, StoreStep.isNext, hq, hx]
      | none =>
        simp [Faults.atStep, StoreStep.isQuery, StoreStep.isExec, StoreStep.isNext, hq, hx,
          execStatement]
    | some row =>
      have hn := hnone row hsel
      have hcontra : ¬ (db.faults.next ≠ none) := fun h => by
        have := hsome h
        rw [hsel] at this
        cases this
      cases hs : db.faults.scan with
      | some err =>
        simp [Faults.atStep, StoreStep.isQuery, StoreStep.isExec, StoreStep.isNext, hq, hs, hn]
      | none =>
        cases hx : db.faults.exec with
        | some err =>
          simp [Faults.atStep, StoreStep.isQuery, StoreStep.isExec, StoreStep.isNext, hq, hs,
            hx, hn]
        | none =>
          simp [Faults.atStep, StoreStep.isQuery, StoreStep.isExec, StoreStep.isNext, hq, hs,
            hx, hn, execStatement]

theorem InsertURL_error_propagation_witness :
    InsertURL ⟨[], { noFaults with exec := some "pq: could not extend file" }⟩
        ⟨"hBreFgHC", "https://example.com/a", 3, 3⟩
      = { err := some "pq: could not extend file", rows := [],
          log := [⟨.QueryContext (.select_query "hBreFgHC"), none⟩, ⟨.Next, none⟩,
                  ⟨.ExecContext (.insert_query "hBreFgHC" "https://example.com/a" 3 3),
                    some "pq: could not extend file"⟩] }
    ∧ InsertURL ⟨[⟨"hBreFgHC", "https://example.com/a", 1, 1⟩],
          { noFaults with scan := some "sql: Scan error on column index 2" }⟩
        ⟨"hBreFgHC", "https://example.com/a", 3, 3⟩
      = { err := some "sql: Scan error on column index 2",
          rows := [⟨"hBreFgHC", "https://example.com/a", 1, 1⟩],
          log := [⟨.QueryContext (.select_query "hBreFgHC"), none⟩, ⟨.Next, none⟩,
                  ⟨.Scan, some "sql: Scan error on column index 2"⟩] } :=
  ⟨(InsertURL_error_propagation
      ⟨[], { noFaults with exec := some "pq: could not extend file" }⟩
      ⟨"hBreFgHC", "https://example.com/a", 3, 3⟩).2.2.2.1
      "pq: could not extend file" (by decide) (by decide) (by decide),
   (InsertURL_error_propagation
      ⟨[⟨"hBreFgHC", "https://example.com/a", 1, 1⟩],
        { noFaults with scan := some "sql: Scan error on column index 2" }⟩
      ⟨"hBreFgHC", "https://example.com/a", 3, 3⟩).2.1
      ⟨"hBreFgHC", "https://example.com/a", 1, 1⟩ "sql: Scan error on column index 2"
      (by decide) (by decide) (by decide)⟩

/-- C8 (the code at the failing input). The table holds one row with id `"WoYRJ8p3"`, so at
most one row per id; the query succeeds and reading its rows fails; `InsertURL` with an
entry of that id returns `nil` and leaves two rows with the id. The same table is reached
from the empty table by two calls run one after the other. -/
theorem InsertURL_rows_unread_duplicates_id :
    UniqueIds ([⟨"WoYRJ8p3", "https://example.com/c", 1, 1⟩] : Table)
    ∧ (InsertURL ⟨[⟨"WoYRJ8p3", "https://example.com/c", 1, 1⟩], nextFails⟩
        ⟨"WoYRJ8p3", "https://example.com/c", 2, 2⟩).err = none
    ∧ (InsertURL ⟨[⟨"WoYRJ8p3", "https://example.com/c", 1, 1⟩], nextFails⟩
        ⟨"WoYRJ8p3", "https://example.com/c", 2, 2⟩).rows
      = [⟨"WoYRJ8p3", "https://example.com/c", 1, 1⟩, ⟨"WoYRJ8p3", "https://example.com/c", 2, 2⟩]
    ∧ ¬ UniqueIds (InsertURL ⟨[⟨"WoYRJ8p3", "https://example.com/c", 1, 1⟩], nextFails⟩
        ⟨"WoYRJ8p3", "https://example.com/c", 2, 2⟩).rows
    ∧ ¬ UniqueIds (runCalls []
        [(noFaults, ⟨"WoYRJ8p3", "https://example.com/c", 1, 1⟩),
         (nextFails, ⟨"WoYRJ8p3", "https://example.com/c", 2, 2⟩)]) := by
  decide

/-- C9 (the code at the failing input). From the empty table, for the id `"GTjVbHmN"`: a
first call with timestamp `1`; a second call with timestamp `9` during which reading the
rows of the query fails, which inserts a second row `(…, 9, 9)`; a third call with
timestamp `12` on a store without failures, whose update statement is bound to the first
row's `Updated_At` and applies to both rows. The second row's `updated_at` was `9` before
the third call and is `1` after it. -/
theorem runCalls_updated_at_decreases :
    runCalls []
        [(noFaults, ⟨"GTjVbHmN", "https://example.com/b", 1, 1⟩),
         (nextFails, ⟨"GTjVbHmN", "https://example.com/b", 9, 9⟩)]
      = [⟨"GTjVbHmN", "https://example.com/b", 1, 1⟩, ⟨"GTjVbHmN", "https://example.com/b", 9, 9⟩]
    ∧ (InsertURL
        ⟨[⟨"GTjVbHmN", "https://example.com/b", 1, 1⟩, ⟨"GTjVbHmN", "https://example.com/b", 9, 9⟩],
          noFaults⟩ ⟨"GTjVbHmN", "https://example.com/b", 12, 12⟩).err = none
    ∧ runCalls []
        [(noFaults, ⟨"GTjVbHmN", "https://example.com/b", 1, 1⟩),
         (nextFails, ⟨"GTjVbHmN", "https://example.com/b", 9, 9⟩),
         (noFaults, ⟨"GTjVbHmN", "https://example.com/b", 12, 12⟩)]
      = [⟨"GTjVbHmN", "https://example.com/b", 1, 1⟩, ⟨"GTjVbHmN", "https://example.com/b", 9, 1⟩] := by
  decide

/-- C10 (the code at the failing input). With ping and decoding succeeding and the decoded
URL `"https://example.com/15344520"`, which is not empty, `GenerateShortLink` panics inside
`PutURL`: the handler returns no response, `InsertURL` is never called with an id, and the
table is unchanged. -/
theorem PutURL_nonempty_url_panics :
    PutURL ⟨[], noFaults⟩ (some ⟨"https://example.com/15344520"⟩) 1
      = { response := none, rows := [],
          calls := [.GenerateShortLink "https://example.com/15344520"] } := by
  decide!

end EchoSql
